import Mathlib

/-!
Verification of the `fps_ticker` crate (`src/lib.rs`).

The crate tracks frames-per-second over a sliding window:

* `Fps` holds a fixed `window_len` and an interior-mutable `Inner` with a
  FIFO `window` of `Duration`s, the `Instant` of the last tick, and three
  cached `f64` statistics `avg`, `min`, `max`.
* `tick` measures the duration since the previous tick, evicts old entries
  while `window.len() + 1 > window_len`, appends the new duration, and
  recomputes the three statistics.
* `avg`/`min`/`max` return the cached statistics.

Embedding choices:

* An `Instant` and a `Duration` are whole numbers of nanoseconds (`ℕ`),
  exactly the resolution of the Rust types.  `Instant::duration_since`
  saturates at zero, which is precisely truncated subtraction on `ℕ`.
* `Duration::as_secs_f64` is idealised as the exact rational `d / 10^9`.
* An `f64` statistic value is modelled by `FpVal`: either an exact rational
  (`FpVal.fin`) or positive infinity (`FpVal.inf`), the IEEE result of
  `1.0 / 0.0` produced by the crate's unguarded divisions.  (All reachable
  divisions have non-negative arguments, so no NaN or negative infinity can
  arise.)
* Interior mutability (`RefCell`) is rendered as explicit state passing.
* The eviction loop `while window.len() + 1 > window_len { pop_front() }`
  does not terminate when `window_len == 0` (`pop_front` on an empty
  `VecDeque` is a no-op and the guard stays true), so the loop is embedded
  as a fuel-indexed function `evictFuel` returning `Option`, with `none`
  meaning "still looping after `fuel` iterations".  With fuel `w.length`
  the loop's exit, when it exits at all, is reached within the fuel, so
  `Fps.tick` uses that fuel; `evictFuel` returns `none` for every fuel
  when `window_len = 0`.
-/

namespace FpsTicker

/-- Nanoseconds per second; `Duration` stores an integral number of
nanoseconds. -/
def nanosPerSec : ℕ := 1000000000

/-- `Duration::as_secs_f64`, idealised as exact rational arithmetic. -/
def secs (d : ℕ) : ℚ := (d : ℚ) / (nanosPerSec : ℚ)

/-- `Instant::duration_since` (saturating): elapsed nanoseconds from `last`
to `now`, clamped at zero.  Truncated `ℕ` subtraction is exactly this. -/
def durSince (now last : ℕ) : ℕ := now - last

/-- The value of an `f64` statistic produced by the crate: an exact rational
or positive infinity (the IEEE result of dividing by `+0.0`). -/
inductive FpVal where
  | fin : ℚ → FpVal
  | inf : FpVal
deriving DecidableEq

/-- `1.0 / q` in IEEE semantics for non-negative `q`: infinity at `q = 0`,
otherwise the exact reciprocal. -/
def recipF (q : ℚ) : FpVal := if q = 0 then FpVal.inf else FpVal.fin (1 / q)

/-- The IEEE `<=` order restricted to the values the crate can produce
(finite reals and `+inf`). -/
def FpVal.le : FpVal → FpVal → Prop
  | .fin a, .fin b => a ≤ b
  | .inf, .fin _ => False
  | _, .inf => True

instance FpVal.decLe : ∀ a b : FpVal, Decidable (FpVal.le a b)
  | .fin a, .fin b => inferInstanceAs (Decidable (a ≤ b))
  | .inf, .fin _ => .isFalse id
  | .fin _, .inf => .isTrue trivial
  | .inf, .inf => .isTrue trivial

/-- The `Inner` struct: the window of durations (front = oldest), the
instant of the last tick, and the three cached statistics. -/
structure Inner where
  window : List ℕ
  last : ℕ
  avg : FpVal
  min : FpVal
  max : FpVal
deriving DecidableEq

/-- The `Fps` struct: the fixed window length and the interior state. -/
structure Fps where
  window_len : ℕ
  inner : Inner
deriving DecidableEq

/-- `Inner::calc_avg`: sum the window as seconds, divide by the element
count, and invert. -/
def Inner.calc_avg (s : Inner) : FpVal :=
  recipF ((s.window.map secs).sum / (s.window.length : ℚ))

/-- `Inner::calc_min`: invert the largest duration in the window
(`iter().max().map(as_secs_f64).unwrap_or(0.0)`). -/
def Inner.calc_min (s : Inner) : FpVal :=
  recipF ((s.window.max?.map secs).getD 0)

/-- `Inner::calc_max`: invert the smallest duration in the window
(`iter().min().map(as_secs_f64).unwrap_or(0.0)`). -/
def Inner.calc_max (s : Inner) : FpVal :=
  recipF ((s.window.min?.map secs).getD 0)

/-- `Fps::DEFAULT_WINDOW_LEN`. -/
def Fps.DEFAULT_WINDOW_LEN : ℕ := 60

/-- `Fps::with_window_len`: empty window, `last = Instant::now()` (passed in
as `now`), statistics initialised to `0.0`. -/
def Fps.with_window_len (window_len : ℕ) (now : ℕ) : Fps :=
  { window_len := window_len
    inner := { window := [], last := now,
               avg := FpVal.fin 0, min := FpVal.fin 0, max := FpVal.fin 0 } }

/-- `impl Default for Fps`. -/
def Fps.default (now : ℕ) : Fps :=
  Fps.with_window_len Fps.DEFAULT_WINDOW_LEN now

/-- The loop `while window.len() + 1 > window_len { window.pop_front() }`,
indexed by fuel.  `none` means the loop is still running after `fuel`
iterations; `pop_front` on a list is `drop 1` (a no-op on `[]`, as for
`VecDeque::pop_front`). -/
def evictFuel : ℕ → ℕ → List ℕ → Option (List ℕ)
  | 0, cap, w => if w.length + 1 > cap then none else some w
  | fuel + 1, cap, w =>
      if w.length + 1 > cap then evictFuel fuel cap (w.drop 1) else some w

/-- `Fps::tick`, with the clock reading `now` passed in.  Returns `none`
when the eviction loop diverges (which happens exactly for
`window_len = 0`).  The field updates follow the source order: `last`,
eviction, `push_back(delta)`, then `avg`, `min`, `max`. -/
def Fps.tick (fps : Fps) (now : ℕ) : Option Fps :=
  let delta := durSince now fps.inner.last
  let s0 : Inner := { fps.inner with last := now }
  match evictFuel s0.window.length fps.window_len s0.window with
  | none => none
  | some w =>
      let s1 : Inner := { s0 with window := w ++ [delta] }
      let s2 : Inner := { s1 with avg := s1.calc_avg }
      let s3 : Inner := { s2 with min := s2.calc_min }
      let s4 : Inner := { s3 with max := s3.calc_max }
      some { fps with inner := s4 }

/-- `Fps::avg`: read the cached average. -/
def Fps.avg (fps : Fps) : FpVal := fps.inner.avg

/-- `Fps::min`: read the cached minimum. -/
def Fps.min (fps : Fps) : FpVal := fps.inner.min

/-- `Fps::max`: read the cached maximum. -/
def Fps.max (fps : Fps) : FpVal := fps.inner.max

/-- `Fps::avg` as a state transformer: the method takes `&self`, performs a
read-only `borrow`, and writes nothing, so the translation returns the
state unchanged alongside the value. -/
def Fps.avgCall (fps : Fps) : FpVal × Fps := (fps.inner.avg, fps)

/-- `Fps::min` as a state transformer (read-only `borrow`). -/
def Fps.minCall (fps : Fps) : FpVal × Fps := (fps.inner.min, fps)

/-- `Fps::max` as a state transformer (read-only `borrow`). -/
def Fps.maxCall (fps : Fps) : FpVal × Fps := (fps.inner.max, fps)

/-- Run `tick` once per element of `ts`, each element being the clock
reading observed by that call. -/
def Fps.tickN (fps : Fps) (ts : List ℕ) : Option Fps :=
  match ts with
  | [] => some fps
  | t :: rest => (fps.tick t).bind (fun f => f.tickN rest)

/-- The inter-tick durations sampled by ticks at clock readings `ts`,
starting from last-tick time `last`: `deltas last [t1, t2, ...] =
[durSince t1 last, durSince t2 t1, ...]`. -/
def deltas (last : ℕ) (ts : List ℕ) : List ℕ :=
  match ts with
  | [] => []
  | t :: rest => durSince t last :: deltas t rest

/-! Basic facts about the eviction loop. -/

/-- With capacity `0` the guard `len + 1 > 0` is always true, so the loop
never exits, whatever the fuel. -/
theorem evictFuel_cap_zero (fuel : ℕ) (w : List ℕ) : evictFuel fuel 0 w = none := by
  induction fuel generalizing w with
  | zero => simp [evictFuel]
  | succ n ih => simp [evictFuel, ih]

/-- When the loop exits, the guard is false: the result leaves room for one
more element. -/
theorem evictFuel_some_length {fuel cap : ℕ} {w w' : List ℕ}
    (h : evictFuel fuel cap w = some w') : w'.length + 1 ≤ cap := by
  induction fuel generalizing w with
  | zero =>
      simp only [evictFuel] at h
      by_cases hc : w.length + 1 > cap
      · rw [if_pos hc] at h; exact absurd h (by simp)
      · rw [if_neg hc] at h
        cases h
        omega
  | succ n ih =>
      simp only [evictFuel] at h
      by_cases hc : w.length + 1 > cap
      · rw [if_pos hc] at h; exact ih h
      · rw [if_neg hc] at h
        cases h
        omega

/-- Every element surviving the loop was already in the window. -/
theorem evictFuel_subset {fuel cap : ℕ} {w w' : List ℕ}
    (h : evictFuel fuel cap w = some w') : ∀ x ∈ w', x ∈ w := by
  induction fuel generalizing w with
  | zero =>
      simp only [evictFuel] at h
      by_cases hc : w.length + 1 > cap
      · rw [if_pos hc] at h; exact absurd h (by simp)
      · rw [if_neg hc] at h
        cases h
        exact fun x hx => hx
  | succ n ih =>
      simp only [evictFuel] at h
      by_cases hc : w.length + 1 > cap
      · rw [if_pos hc] at h
        exact fun x hx => List.drop_subset 1 w (ih h x hx)
      · rw [if_neg hc] at h
        cases h
        exact fun x hx => hx

/-- For a positive capacity, fuel `w.length` suffices and the loop returns
the window with the oldest `w.length + 1 - cap` entries dropped. -/
theorem evictFuel_eq_drop {cap : ℕ} (hcap : 1 ≤ cap) :
    ∀ w : List ℕ, evictFuel w.length cap w = some (w.drop (w.length + 1 - cap)) := by
  intro w
  induction w with
  | nil =>
      have h : ¬ (List.length ([] : List ℕ) + 1 > cap) := by
        simp only [List.length_nil]; omega
      simp only [List.length_nil, evictFuel]
      rw [if_neg (by simpa using h)]
      simp
  | cons x xs ih =>
      show evictFuel (xs.length + 1) cap (x :: xs) = _
      by_cases hc : (x :: xs).length + 1 > cap
      · have hidx : (x :: xs).length + 1 - cap = (xs.length + 1 - cap) + 1 := by
          simp only [List.length_cons] at hc ⊢; omega
        simp only [evictFuel]
        rw [if_pos hc, hidx]
        simpa using ih
      · have hidx : (x :: xs).length + 1 - cap = 0 := by
          simp only [List.length_cons] at hc ⊢; omega
        simp only [evictFuel]
        rw [if_neg hc, hidx]
        simp

/-! Characterisation of `tick`. -/

/-- The state built by the tail of a successful `tick`: evicted window `w`,
new delta appended, `last` set to `now`, statistics recomputed. -/
def postTick (cap : ℕ) (w : List ℕ) (delta now : ℕ) : Fps :=
  { window_len := cap
    inner := { window := w ++ [delta], last := now,
               avg := recipF (((w ++ [delta]).map secs).sum /
                        (((w ++ [delta]).length : ℕ) : ℚ)),
               min := recipF (((w ++ [delta]).max?.map secs).getD 0),
               max := recipF (((w ++ [delta]).min?.map secs).getD 0) } }

/-- `tick` unfolded: run the eviction loop, then build the new state. -/
theorem Fps.tick_def (fps : Fps) (now : ℕ) :
    fps.tick now =
      (evictFuel fps.inner.window.length fps.window_len fps.inner.window).map
        (fun w => postTick fps.window_len w (durSince now fps.inner.last) now) := by
  show (match evictFuel fps.inner.window.length fps.window_len fps.inner.window with
        | none => none
        | some w => some (postTick fps.window_len w (durSince now fps.inner.last) now)) = _
  cases evictFuel fps.inner.window.length fps.window_len fps.inner.window <;> rfl

/-- For positive capacity, `tick` succeeds and drops exactly
`len + 1 - cap` oldest entries before appending the new delta. -/
theorem Fps.tick_eq (fps : Fps) (now : ℕ) (h : 1 ≤ fps.window_len) :
    fps.tick now = some (postTick fps.window_len
      (fps.inner.window.drop (fps.inner.window.length + 1 - fps.window_len))
      (durSince now fps.inner.last) now) := by
  rw [Fps.tick_def, evictFuel_eq_drop h]
  rfl

/-- Any successful `tick` has the `postTick` shape for some survivor list
produced by the eviction loop. -/
theorem Fps.tick_some {fps : Fps} {now : ℕ} {f : Fps} (h : fps.tick now = some f) :
    ∃ w, evictFuel fps.inner.window.length fps.window_len fps.inner.window = some w ∧
      f = postTick fps.window_len w (durSince now fps.inner.last) now := by
  rw [Fps.tick_def] at h
  cases hE : evictFuel fps.inner.window.length fps.window_len fps.inner.window with
  | none => rw [hE] at h; simp at h
  | some w =>
      rw [hE] at h
      simp only [Option.map_some', Option.some.injEq] at h
      exact ⟨w, rfl, h.symm⟩

theorem deltas_length (last : ℕ) (ts : List ℕ) : (deltas last ts).length = ts.length := by
  induction ts generalizing last with
  | nil => rfl
  | cons t rest ih => simp [deltas, ih]

/-- Composing one eviction-and-append step with a later suffix-drop is the
same as a single suffix-drop of the whole delta stream. -/
theorem drop_window_step (w : List ℕ) (d : ℕ) (ds : List ℕ) (cap : ℕ)
    (hcap : 1 ≤ cap) :
    ((w.drop (w.length + 1 - cap) ++ [d]) ++ ds).drop
        ((w.drop (w.length + 1 - cap) ++ [d]).length + ds.length - cap) =
      (w ++ d :: ds).drop (w.length + (ds.length + 1) - cap) := by
  have hk : w.length + 1 - cap ≤ w.length := by omega
  have h1 : (w.drop (w.length + 1 - cap) ++ [d]) ++ ds =
      (w ++ d :: ds).drop (w.length + 1 - cap) := by
    rw [List.append_assoc, List.drop_append_eq_append_drop,
      Nat.sub_eq_zero_of_le hk, List.drop_zero]
    rfl
  rw [h1, List.drop_drop]
  congr 1
  simp only [List.length_append, List.length_drop, List.length_cons,
    List.length_nil]
  omega

/-- Master lemma: for positive capacity a run of `tickN` succeeds, keeps the
capacity, and ends with the window equal to the tail of the accumulated
delta stream that fits the capacity. -/
theorem Fps.tickN_window {ts : List ℕ} :
    ∀ (fps : Fps), 1 ≤ fps.window_len →
      fps.inner.window.length ≤ fps.window_len →
      ∃ f, fps.tickN ts = some f ∧ f.window_len = fps.window_len ∧
        f.inner.window = (fps.inner.window ++ deltas fps.inner.last ts).drop
          (fps.inner.window.length + ts.length - fps.window_len) := by
  induction ts with
  | nil =>
      intro fps hcap hlen
      exact ⟨fps, rfl, rfl, by
        simp [deltas, Nat.sub_eq_zero_of_le hlen]⟩
  | cons t rest ih =>
      intro fps hcap hlen
      have hlen' : (postTick fps.window_len
          (fps.inner.window.drop (fps.inner.window.length + 1 - fps.window_len))
          (durSince t fps.inner.last) t).inner.window.length ≤
          (postTick fps.window_len
          (fps.inner.window.drop (fps.inner.window.length + 1 - fps.window_len))
          (durSince t fps.inner.last) t).window_len := by
        simp only [postTick, List.length_append, List.length_drop,
          List.length_cons, List.length_nil]
        omega
      obtain ⟨f, hrun, hl, hwin⟩ := ih (postTick fps.window_len
        (fps.inner.window.drop (fps.inner.window.length + 1 - fps.window_len))
        (durSince t fps.inner.last) t) hcap hlen'
      refine ⟨f, ?_, hl, ?_⟩
      · show (fps.tick t).bind (fun f => f.tickN rest) = some f
        rw [Fps.tick_eq fps t hcap]
        exact hrun
      · rw [hwin]
        have hd := drop_window_step fps.inner.window (durSince t fps.inner.last)
          (deltas t rest) fps.window_len hcap
        rw [deltas_length] at hd
        simp only [postTick, deltas, List.length_cons]
        exact hd

/-- A non-empty run of `tickN` ends in a `tick`. -/
theorem Fps.tickN_last_tick {ts : List ℕ} :
    ∀ {fps f : Fps}, fps.tickN ts = some f → ts ≠ [] →
      ∃ (g : Fps) (t' : ℕ), g.tick t' = some f := by
  induction ts with
  | nil => intro fps f _ hne; exact absurd rfl hne
  | cons t rest ih =>
      intro fps f h _
      have h' : (fps.tick t).bind (fun g => g.tickN rest) = some f := h
      cases hT : fps.tick t with
      | none => rw [hT] at h'; simp at h'
      | some f1 =>
          rw [hT] at h'
          simp only [Option.some_bind] at h'
          by_cases hr : rest = []
          · subst hr
            have h2 : f1 = f := Option.some.inj h'
            exact ⟨fps, t, by rw [hT, h2]⟩
          · exact ih h' hr

/-! Order facts about the statistic values. -/

theorem FpVal.le_inf (x : FpVal) : FpVal.le x FpVal.inf := by
  cases x <;> trivial

/-- Inversion is antitone on non-negative arguments, with `1/0 = +inf` at
the top. -/
theorem recipF_le_recipF {a b : ℚ} (ha : 0 ≤ a) (hab : a ≤ b) :
    FpVal.le (recipF b) (recipF a) := by
  by_cases h0 : a = 0
  · rw [h0]
    simp only [recipF, if_pos rfl]
    exact FpVal.le_inf _
  · have ha' : 0 < a := lt_of_le_of_ne ha (Ne.symm h0)
    have hb' : 0 < b := lt_of_lt_of_le ha' hab
    simp only [recipF, if_neg (ne_of_gt ha'), if_neg (ne_of_gt hb')]
    exact one_div_le_one_div_of_le ha' hab

theorem secs_nonneg (d : ℕ) : 0 ≤ secs d := by
  unfold secs
  exact div_nonneg (Nat.cast_nonneg d) (by norm_num [nanosPerSec])

theorem secs_le_secs {a b : ℕ} (h : a ≤ b) : secs a ≤ secs b := by
  unfold secs
  have hN : (0 : ℚ) < (nanosPerSec : ℚ) := by norm_num [nanosPerSec]
  exact (div_le_div_iff_of_pos_right hN).mpr (Nat.cast_le.mpr h)

/-- A non-empty list has a greatest element, and `max?` finds it. -/
theorem max?_spec {w : List ℕ} (hw : w ≠ []) :
    ∃ M, w.max? = some M ∧ M ∈ w ∧ ∀ x ∈ w, x ≤ M := by
  cases hM : w.max? with
  | none => exact absurd (List.max?_eq_none_iff.mp hM) hw
  | some M =>
      have h := (List.max?_eq_some_iff (fun a => le_refl a) max_choice
        (fun a b c => max_le_iff)).mp hM
      exact ⟨M, rfl, h.1, h.2⟩

/-- A non-empty list has a least element, and `min?` finds it. -/
theorem min?_spec {w : List ℕ} (hw : w ≠ []) :
    ∃ m, w.min? = some m ∧ m ∈ w ∧ ∀ x ∈ w, m ≤ x := by
  cases hm : w.min? with
  | none => exact absurd (List.min?_eq_none_iff.mp hm) hw
  | some m =>
      have h := (List.min?_eq_some_iff (fun a => le_refl a) min_choice
        (fun a b c => le_min_iff)).mp hm
      exact ⟨m, rfl, h.1, h.2⟩

/-- The mean of the window (in seconds) is at most the largest duration. -/
theorem mean_le_secs_max {w : List ℕ} {M : ℕ} (hw : w ≠ [])
    (hub : ∀ x ∈ w, x ≤ M) :
    (w.map secs).sum / (w.length : ℚ) ≤ secs M := by
  have hl : (0 : ℚ) < (w.length : ℚ) := by
    have := List.length_pos.mpr hw
    exact_mod_cast this
  rw [div_le_iff₀ hl]
  have hsum : (w.map secs).sum ≤ (w.map secs).length • secs M :=
    List.sum_le_card_nsmul _ _ (by
      intro x hx
      obtain ⟨y, hy, rfl⟩ := List.mem_map.mp hx
      exact secs_le_secs (hub y hy))
  rw [List.length_map, nsmul_eq_mul] at hsum
  calc (w.map secs).sum ≤ (w.length : ℚ) * secs M := hsum
    _ = secs M * (w.length : ℚ) := mul_comm _ _

/-- The mean of the window (in seconds) is at least the smallest duration. -/
theorem secs_min_le_mean {w : List ℕ} {m : ℕ} (hw : w ≠ [])
    (hlb : ∀ x ∈ w, m ≤ x) :
    secs m ≤ (w.map secs).sum / (w.length : ℚ) := by
  have hl : (0 : ℚ) < (w.length : ℚ) := by
    have := List.length_pos.mpr hw
    exact_mod_cast this
  rw [le_div_iff₀ hl]
  have hsum : (w.map secs).length • secs m ≤ (w.map secs).sum :=
    List.card_nsmul_le_sum _ _ (by
      intro x hx
      obtain ⟨y, hy, rfl⟩ := List.mem_map.mp hx
      exact secs_le_secs (hlb y hy))
  rw [List.length_map, nsmul_eq_mul] at hsum
  calc secs m * (w.length : ℚ) = (w.length : ℚ) * secs m := mul_comm _ _
    _ ≤ (w.map secs).sum := hsum

/-- On any non-empty window the three computed statistics are ordered:
`calc_min ≤ calc_avg ≤ calc_max` pointwise on the window expressions. -/
theorem window_stats_ordered {w : List ℕ} (hw : w ≠ []) :
    FpVal.le (recipF ((w.max?.map secs).getD 0))
        (recipF ((w.map secs).sum / (w.length : ℚ))) ∧
    FpVal.le (recipF ((w.map secs).sum / (w.length : ℚ)))
        (recipF ((w.min?.map secs).getD 0)) := by
  obtain ⟨M, hM, _, hub⟩ := max?_spec hw
  obtain ⟨m, hm, hmmem, hlb⟩ := min?_spec hw
  rw [hM, hm]
  simp only [Option.map_some', Option.getD_some]
  constructor
  · have hmean : (w.map secs).sum / (w.length : ℚ) ≤ secs M :=
      mean_le_secs_max hw hub
    have hnn : 0 ≤ (w.map secs).sum / (w.length : ℚ) := by
      apply div_nonneg
      · exact List.sum_nonneg (by
          intro x hx
          obtain ⟨y, _, rfl⟩ := List.mem_map.mp hx
          exact secs_nonneg y)
      · exact Nat.cast_nonneg _
    exact recipF_le_recipF hnn hmean
  · exact recipF_le_recipF (secs_nonneg m) (secs_min_le_mean hw hlb)

/-- Any successful run of `tickN` preserves the capacity and the invariant
`window.length ≤ window_len` (for every capacity, zero included). -/
theorem Fps.tickN_len_invariant {ts : List ℕ} :
    ∀ {fps f : Fps}, fps.tickN ts = some f →
      fps.inner.window.length ≤ fps.window_len →
      f.window_len = fps.window_len ∧
        f.inner.window.length ≤ fps.window_len := by
  induction ts with
  | nil =>
      intro fps f h hlen
      have h2 : fps = f := Option.some.inj h
      subst h2
      exact ⟨rfl, hlen⟩
  | cons t rest ih =>
      intro fps f h hlen
      have h' : (fps.tick t).bind (fun g => g.tickN rest) = some f := h
      cases hT : fps.tick t with
      | none => rw [hT] at h'; simp at h'
      | some f1 =>
          rw [hT] at h'
          simp only [Option.some_bind] at h'
          obtain ⟨w, hE, rfl⟩ := Fps.tick_some hT
          have hcap : w.length + 1 ≤ fps.window_len := evictFuel_some_length hE
          have hlen1 : (postTick fps.window_len w (durSince t fps.inner.last)
              t).inner.window.length ≤
              (postTick fps.window_len w (durSince t fps.inner.last)
              t).window_len := by
            simp only [postTick, List.length_append, List.length_cons,
              List.length_nil]
            omega
          have hres := ih h' hlen1
          exact ⟨hres.1, hres.2⟩

/-! The claims. -/

/-- C1: a tick that completes leaves the window non-empty, and the cached
statistics computed by that tick satisfy the statistic identities:
`avg = 1 / (mean of the window durations in seconds)`, `min = 1 / (largest
duration)`, `max = 1 / (smallest duration)`; the caches are exactly these
functions of the window contents as of this most recent tick. -/
theorem fps_C1_statistic_identities (fps : Fps) (now : ℕ) (f : Fps)
    (h : fps.tick now = some f) :
    f.inner.window ≠ [] ∧
    Fps.avg f = recipF ((f.inner.window.map secs).sum /
      (f.inner.window.length : ℚ)) ∧
    (∃ M, f.inner.window.max? = some M ∧ Fps.min f = recipF (secs M)) ∧
    (∃ m, f.inner.window.min? = some m ∧ Fps.max f = recipF (secs m)) := by
  obtain ⟨w, hE, rfl⟩ := Fps.tick_some h
  have hne : (w ++ [durSince now fps.inner.last]) ≠ [] := by simp
  refine ⟨by simp [postTick], rfl, ?_, ?_⟩
  · obtain ⟨M, hM, _, _⟩ := max?_spec hne
    refine ⟨M, by simpa [postTick] using hM, ?_⟩
    show recipF (((w ++ [durSince now fps.inner.last]).max?.map secs).getD 0) = _
    rw [hM]
    rfl
  · obtain ⟨m, hm, _, _⟩ := min?_spec hne
    refine ⟨m, by simpa [postTick] using hm, ?_⟩
    show recipF (((w ++ [durSince now fps.inner.last]).min?.map secs).getD 0) = _
    rw [hm]
    rfl

/-- Witness for C1 at capacity 2, construction time 0, one tick at time 1. -/
theorem fps_C1_witness :
    (Fps.with_window_len 2 0).tick 1 =
      some (((Fps.with_window_len 2 0).tick 1).getD (Fps.with_window_len 2 0)) ∧
    ((((Fps.with_window_len 2 0).tick 1).getD
        (Fps.with_window_len 2 0)).inner.window ≠ [] ∧
      Fps.avg (((Fps.with_window_len 2 0).tick 1).getD (Fps.with_window_len 2 0)) =
        recipF ((((((Fps.with_window_len 2 0).tick 1).getD
          (Fps.with_window_len 2 0)).inner.window.map secs).sum /
          (((((Fps.with_window_len 2 0).tick 1).getD
          (Fps.with_window_len 2 0)).inner.window.length : ℕ) : ℚ))) ∧
      (∃ M, (((Fps.with_window_len 2 0).tick 1).getD
          (Fps.with_window_len 2 0)).inner.window.max? = some M ∧
        Fps.min (((Fps.with_window_len 2 0).tick 1).getD
          (Fps.with_window_len 2 0)) = recipF (secs M)) ∧
      (∃ m, (((Fps.with_window_len 2 0).tick 1).getD
          (Fps.with_window_len 2 0)).inner.window.min? = some m ∧
        Fps.max (((Fps.with_window_len 2 0).tick 1).getD
          (Fps.with_window_len 2 0)) = recipF (secs m))) :=
  ⟨rfl, fps_C1_statistic_identities (Fps.with_window_len 2 0) 1 _ rfl⟩

/-- C2 as stated is false: at capacity 0 a single tick never completes (the
eviction loop diverges), so there is no post-tick state whose window length
could equal `min 1 0`. -/
theorem fps_C2_counterexample :
    ((Fps.with_window_len 0 0).tickN [1]).map (fun f => f.inner.window.length) ≠
      some (min ([1] : List ℕ).length 0) := by
  have h0 : (Fps.with_window_len 0 0).tick 1 = none := by
    rw [Fps.tick_def]
    simp [Fps.with_window_len, evictFuel_cap_zero]
  show (((Fps.with_window_len 0 0).tick 1).bind (fun g => g.tickN [])).map
      (fun f => f.inner.window.length) ≠ _
  rw [h0]
  simp

/-- C2 amended to positive capacities: for every capacity `C ≥ 1` and every
sequence of `N` ticks, the run completes and the window length afterwards is
`min N C`. -/
theorem fps_C2_bounded_window (C t0 : ℕ) (ts : List ℕ) (h : 1 ≤ C) :
    ((Fps.with_window_len C t0).tickN ts).map (fun f => f.inner.window.length) =
      some (min ts.length C) := by
  obtain ⟨f, hrun, hlen, hwin⟩ := Fps.tickN_window
    (Fps.with_window_len C t0) h (by simp [Fps.with_window_len])
  rw [hrun]
  simp only [Option.map_some', Option.some.injEq]
  rw [hwin]
  have hW : (Fps.with_window_len C t0).window_len = C := rfl
  rw [hW]
  simp only [Fps.with_window_len, List.nil_append, List.length_drop,
    deltas_length, List.length_nil]
  rcases Nat.le_total ts.length C with hle | hle
  · rw [min_eq_left hle]; omega
  · rw [min_eq_right hle]; omega

/-- Witness for C2 (amended): capacity 2, three ticks, final length 2. -/
theorem fps_C2_witness :
    1 ≤ 2 ∧
    ((Fps.with_window_len 2 0).tickN [1, 3, 6]).map
        (fun f => f.inner.window.length) =
      some (min ([1, 3, 6] : List ℕ).length 2) :=
  ⟨by decide, fps_C2_bounded_window 2 0 [1, 3, 6] (by decide)⟩

/-- C3: the claim that `tick` always runs to completion fails for a zero
capacity, where the spec's own degenerate-case convention expects an empty
window rather than a hang.  The code's eviction loop
`while window.len() + 1 > 0 { pop_front() }` never exits: `pop_front` on
the empty deque is a no-op, so the guard stays true for every number of
iterations, and `tick` diverges. -/
theorem fps_C3_tick_diverges_at_cap_zero (t0 now fuel : ℕ) :
    evictFuel fuel 0 (Fps.with_window_len 0 t0).inner.window = none ∧
    (Fps.with_window_len 0 t0).tick now = none := by
  refine ⟨evictFuel_cap_zero fuel _, ?_⟩
  rw [Fps.tick_def]
  simp [Fps.with_window_len, evictFuel_cap_zero]

/-- C5: immediately after construction (either constructor) and before any
tick, all three statistics read `0.0`. -/
theorem fps_C5_pre_tick_defaults (cap t0 now : ℕ) :
    Fps.avg (Fps.with_window_len cap t0) = FpVal.fin 0 ∧
    Fps.min (Fps.with_window_len cap t0) = FpVal.fin 0 ∧
    Fps.max (Fps.with_window_len cap t0) = FpVal.fin 0 ∧
    Fps.avg (Fps.default now) = FpVal.fin 0 ∧
    Fps.min (Fps.default now) = FpVal.fin 0 ∧
    Fps.max (Fps.default now) = FpVal.fin 0 :=
  ⟨rfl, rfl, rfl, rfl, rfl, rfl⟩

/-- C7: in every reachable state (any number of ticks from construction;
queries do not mutate, see `fps_C9_queries_no_side_effects`), the window
length is bounded by the capacity, and the capacity is the one fixed at
construction.  This holds for every capacity, zero included. -/
theorem fps_C7_capacity_invariant (C t0 : ℕ) (ts : List ℕ) (f : Fps)
    (h : (Fps.with_window_len C t0).tickN ts = some f) :
    (Fps.with_window_len C t0).window_len = C ∧
    (Fps.with_window_len C t0).inner.window.length ≤ C ∧
    f.window_len = C ∧
    f.inner.window.length ≤ C := by
  have hinv := Fps.tickN_len_invariant h (by simp [Fps.with_window_len])
  exact ⟨rfl, by simp [Fps.with_window_len], hinv.1, hinv.2⟩

/-- Witness for C7: capacity 2, two ticks. -/
theorem fps_C7_witness :
    (Fps.with_window_len 2 0).tickN [1, 3] =
      some (((Fps.with_window_len 2 0).tickN [1, 3]).getD
        (Fps.with_window_len 2 0)) ∧
    ((Fps.with_window_len 2 0).window_len = 2 ∧
      (Fps.with_window_len 2 0).inner.window.length ≤ 2 ∧
      (((Fps.with_window_len 2 0).tickN [1, 3]).getD
        (Fps.with_window_len 2 0)).window_len = 2 ∧
      (((Fps.with_window_len 2 0).tickN [1, 3]).getD
        (Fps.with_window_len 2 0)).inner.window.length ≤ 2) :=
  ⟨rfl, fps_C7_capacity_invariant 2 0 [1, 3] _ rfl⟩

/-- C8: `default()` builds exactly the tracker `with_window_len(60)` builds
(same construction-time clock reading).  The states are equal, so — all
operations being pure functions of the state — the two trackers are
behaviourally indistinguishable; the equal `tickN` runs and equal queries
spell this out. -/
theorem fps_C8_default_is_with_window_len_60 (now : ℕ) (ts : List ℕ) :
    Fps.default now = Fps.with_window_len 60 now ∧
    (Fps.default now).window_len = 60 ∧
    (Fps.default now).tickN ts = (Fps.with_window_len 60 now).tickN ts ∧
    Fps.avg (Fps.default now) = Fps.avg (Fps.with_window_len 60 now) ∧
    Fps.min (Fps.default now) = Fps.min (Fps.with_window_len 60 now) ∧
    Fps.max (Fps.default now) = Fps.max (Fps.with_window_len 60 now) :=
  ⟨rfl, rfl, rfl, rfl, rfl, rfl⟩

/-- C9: the queries have no side effects: each returns the cached value
written by the most recent tick (the initial `0.0` before any tick) and
leaves the entire state — window, last-event timestamp, capacity, and all
three caches — unchanged. -/
theorem fps_C9_queries_no_side_effects (fps : Fps) :
    fps.avgCall.1 = fps.inner.avg ∧
    fps.minCall.1 = fps.inner.min ∧
    fps.maxCall.1 = fps.inner.max ∧
    fps.avgCall.2 = fps ∧
    fps.minCall.2 = fps ∧
    fps.maxCall.2 = fps :=
  ⟨rfl, rfl, rfl, rfl, rfl, rfl⟩

/-- C4: for capacity `C ≥ 1`, after more than `C` ticks the window holds
exactly the `C` most recent inter-tick durations in oldest-to-newest order
(the tail of the delta stream); moreover one tick from any state satisfying
the length invariant drops exactly the oldest `len + 1 - C` entries before
appending, and that count is at most one. -/
theorem fps_C4_eviction_order (C t0 : ℕ) (ts : List ℕ) (f : Fps)
    (g : Fps) (now : ℕ) (g' : Fps)
    (hC : 1 ≤ C) (h : (Fps.with_window_len C t0).tickN ts = some f)
    (hN : C < ts.length)
    (hgcap : g.window_len = C) (hglen : g.inner.window.length ≤ C)
    (hg : g.tick now = some g') :
    f.inner.window = (deltas t0 ts).drop (ts.length - C) ∧
    f.inner.window.length = C ∧
    g'.inner.window = g.inner.window.drop (g.inner.window.length + 1 - C) ++
      [durSince now g.inner.last] ∧
    g.inner.window.length + 1 - C ≤ 1 := by
  obtain ⟨f2, hrun, hlen2, hwin⟩ := Fps.tickN_window
    (Fps.with_window_len C t0) hC (by simp [Fps.with_window_len])
  have hf : f2 = f := Option.some.inj (hrun.symm.trans h)
  subst hf
  have e1 : (Fps.with_window_len C t0).inner.window = ([] : List ℕ) := rfl
  have e2 : (Fps.with_window_len C t0).inner.last = t0 := rfl
  have e3 : (Fps.with_window_len C t0).window_len = C := rfl
  rw [e1, e2, e3] at hwin
  simp only [List.nil_append, List.length_nil, Nat.zero_add] at hwin
  have hT := Fps.tick_eq g now (by rw [hgcap]; exact hC)
  have hgeq : g' = postTick g.window_len
      (g.inner.window.drop (g.inner.window.length + 1 - g.window_len))
      (durSince now g.inner.last) now := Option.some.inj (hg.symm.trans hT)
  refine ⟨hwin, ?_, ?_, by omega⟩
  · rw [hwin]
    simp only [List.length_drop, deltas_length]
    omega
  · rw [hgeq, hgcap]
    rfl

/-- Witness for C4: capacity 1, two ticks for the suffix part, plus a
single tick from a freshly constructed state for the per-tick part. -/
theorem fps_C4_witness :
    1 ≤ 1 ∧
    (Fps.with_window_len 1 0).tickN [1, 3] =
      some (((Fps.with_window_len 1 0).tickN [1, 3]).getD
        (Fps.with_window_len 1 0)) ∧
    1 < ([1, 3] : List ℕ).length ∧
    (Fps.with_window_len 1 5).window_len = 1 ∧
    (Fps.with_window_len 1 5).inner.window.length ≤ 1 ∧
    (Fps.with_window_len 1 5).tick 7 =
      some (((Fps.with_window_len 1 5).tick 7).getD (Fps.with_window_len 1 5)) ∧
    ((((Fps.with_window_len 1 0).tickN [1, 3]).getD
        (Fps.with_window_len 1 0)).inner.window =
        (deltas 0 [1, 3]).drop (([1, 3] : List ℕ).length - 1) ∧
      (((Fps.with_window_len 1 0).tickN [1, 3]).getD
        (Fps.with_window_len 1 0)).inner.window.length = 1 ∧
      (((Fps.with_window_len 1 5).tick 7).getD
        (Fps.with_window_len 1 5)).inner.window =
        (Fps.with_window_len 1 5).inner.window.drop
          ((Fps.with_window_len 1 5).inner.window.length + 1 - 1) ++
          [durSince 7 (Fps.with_window_len 1 5).inner.last] ∧
      (Fps.with_window_len 1 5).inner.window.length + 1 - 1 ≤ 1) :=
  ⟨by decide, rfl, by decide, rfl, by decide, rfl,
    fps_C4_eviction_order 1 0 [1, 3] _ (Fps.with_window_len 1 5) 7 _
      (by decide) rfl (by decide) rfl (by decide) rfl⟩

/-- C6: in every state reached by at least one tick the window is non-empty
(durations, as natural numbers of nanoseconds, are non-negative by
construction) and the cached statistics are ordered `min ≤ avg ≤ max` in
the IEEE order with `+inf` at the top. -/
theorem fps_C6_min_le_avg_le_max (C t0 : ℕ) (ts : List ℕ) (f : Fps)
    (h : (Fps.with_window_len C t0).tickN ts = some f) (hne : ts ≠ []) :
    f.inner.window ≠ [] ∧
    FpVal.le (Fps.min f) (Fps.avg f) ∧
    FpVal.le (Fps.avg f) (Fps.max f) := by
  obtain ⟨g, t', hg⟩ := Fps.tickN_last_tick h hne
  obtain ⟨w, hE, rfl⟩ := Fps.tick_some hg
  have hne' : (w ++ [durSince t' g.inner.last]) ≠ [] := by simp
  have hs := window_stats_ordered hne'
  exact ⟨by simp [postTick], hs.1, hs.2⟩

/-- Witness for C6: capacity 2, two ticks with deltas 1ns and 2ns. -/
theorem fps_C6_witness :
    (Fps.with_window_len 2 0).tickN [1, 3] =
      some (((Fps.with_window_len 2 0).tickN [1, 3]).getD
        (Fps.with_window_len 2 0)) ∧
    ([1, 3] : List ℕ) ≠ [] ∧
    ((((Fps.with_window_len 2 0).tickN [1, 3]).getD
        (Fps.with_window_len 2 0)).inner.window ≠ [] ∧
      FpVal.le (Fps.min (((Fps.with_window_len 2 0).tickN [1, 3]).getD
          (Fps.with_window_len 2 0)))
        (Fps.avg (((Fps.with_window_len 2 0).tickN [1, 3]).getD
          (Fps.with_window_len 2 0))) ∧
      FpVal.le (Fps.avg (((Fps.with_window_len 2 0).tickN [1, 3]).getD
          (Fps.with_window_len 2 0)))
        (Fps.max (((Fps.with_window_len 2 0).tickN [1, 3]).getD
          (Fps.with_window_len 2 0)))) :=
  ⟨rfl, by decide, fps_C6_min_le_avg_le_max 2 0 [1, 3] _ rfl (by decide)⟩

/-- C10: when a completing tick records a zero-length delta, the unguarded
division yields infinity rather than a fault: `max` reads `+inf` afterwards,
and if every duration in the window is zero then `avg` and `min` read
`+inf` as well. -/
theorem fps_C10_zero_delta_infinities (fps : Fps) (now : ℕ) (f : Fps)
    (h : fps.tick now = some f) (hd : durSince now fps.inner.last = 0) :
    Fps.max f = FpVal.inf ∧
    ((∀ x ∈ f.inner.window, x = 0) →
      Fps.avg f = FpVal.inf ∧ Fps.min f = FpVal.inf) := by
  obtain ⟨w, hE, rfl⟩ := Fps.tick_some h
  have hne : (w ++ [durSince now fps.inner.last]) ≠ [] := by simp
  constructor
  · obtain ⟨m, hm, hmem, hlb⟩ := min?_spec hne
    have h0mem : 0 ∈ w ++ [durSince now fps.inner.last] := by
      rw [hd] at hne ⊢
      exact List.mem_append_right w (List.mem_singleton.mpr rfl)
    have hm0 : m = 0 := Nat.le_zero.mp (hlb 0 h0mem)
    show recipF (((w ++ [durSince now fps.inner.last]).min?.map secs).getD 0) =
      FpVal.inf
    rw [hm, hm0]
    simp [recipF, secs]
  · intro hz
    have hz' : ∀ x ∈ w ++ [durSince now fps.inner.last], x = 0 := hz
    have hsum : ((w ++ [durSince now fps.inner.last]).map secs).sum = 0 := by
      apply List.sum_eq_zero
      intro x hx
      obtain ⟨y, hy, rfl⟩ := List.mem_map.mp hx
      rw [hz' y hy]
      simp [secs]
    constructor
    · show recipF (((w ++ [durSince now fps.inner.last]).map secs).sum /
        (((w ++ [durSince now fps.inner.last]).length : ℕ) : ℚ)) = FpVal.inf
      rw [hsum]
      simp [recipF]
    · obtain ⟨M, hM, hMmem, _⟩ := max?_spec hne
      have hM0 : M = 0 := hz' M hMmem
      show recipF (((w ++ [durSince now fps.inner.last]).max?.map secs).getD 0) =
        FpVal.inf
      rw [hM, hM0]
      simp [recipF, secs]

/-- Witness for C10: capacity 2, construction at time 0, tick at time 0
(zero delta); the single-entry window is all zeros. -/
theorem fps_C10_witness :
    (Fps.with_window_len 2 0).tick 0 =
      some (((Fps.with_window_len 2 0).tick 0).getD (Fps.with_window_len 2 0)) ∧
    durSince 0 (Fps.with_window_len 2 0).inner.last = 0 ∧
    (Fps.max (((Fps.with_window_len 2 0).tick 0).getD
        (Fps.with_window_len 2 0)) = FpVal.inf ∧
      ((∀ x ∈ (((Fps.with_window_len 2 0).tick 0).getD
          (Fps.with_window_len 2 0)).inner.window, x = 0) →
        Fps.avg (((Fps.with_window_len 2 0).tick 0).getD
          (Fps.with_window_len 2 0)) = FpVal.inf ∧
        Fps.min (((Fps.with_window_len 2 0).tick 0).getD
          (Fps.with_window_len 2 0)) = FpVal.inf)) :=
  ⟨rfl, by decide, fps_C10_zero_delta_infinities (Fps.with_window_len 2 0) 0 _
    rfl (by decide)⟩

end FpsTicker
